import Mathlib

set_option maxRecDepth 2000

/-!
Shallow embedding of `geneticalgorithm2.py` (repository `sewkokot/geneticalgorithm2`).

Numeric values that the Python code stores as floats are modelled as exact
rationals.  Calls to numpy's random generators are modelled by explicit oracle
arguments: `np.random.random()` draws become rationals supplied by the caller
(constrained to the unit interval where a theorem needs it),
`np.random.randint` draws become natural-number oracles reduced modulo the
size of the requested range, and `np.random.choice` receives an oracle stream
that drives the without-replacement sampling.  Operations that can raise in
numpy (index errors, `ValueError`, broadcasting mismatches) are modelled with
`Option`.
-/

namespace GA2

/-- Python `int(q)` applied to a float: truncation toward zero. -/
def pyTrunc (q : ℚ) : ℤ := if 0 ≤ q then ⌊q⌋ else -⌊-q⌋

/-- Model of `np.int8 i`: wrap-around into the range -128 ... 127. -/
def int8cast (i : ℤ) : ℤ := (i + 128) % 256 - 128

/-- Resolution of a (possibly negative) numpy row index against an axis of
length `n`: a negative index `i` addresses position `n + i`; an out-of-range
index raises `IndexError`, modelled as `none`. -/
def npResolve (n : ℕ) (i : ℤ) : Option ℕ :=
  if 0 ≤ i then (if i < (n : ℤ) then some i.toNat else none)
  else (if 0 ≤ (n : ℤ) + i then some ((n : ℤ) + i).toNat else none)

/-- Row lookup `pop[i]` as performed by the engine after the `np.int8` cast of
a selection index (`geneticalgorithm2.run`, line 437). -/
def npRowGet {α : Type} (pop : List α) (i : ℤ) : Option α :=
  (npResolve pop.length (int8cast i)).bind (fun j => pop.get? j)

/-- Model of `np.random.uniform a b`: the underlying unit-interval draw is
`u`. -/
def npUniform (a b u : ℚ) : ℚ := a + u * (b - a)

/-- Model of `np.random.randint low high` (with `high` exclusive): the draw
`r` is reduced into the range `[low, high)`.  The source only calls it with
`low < high`. -/
def npRandInt (low high : ℤ) (r : ℕ) : ℤ := low + (r : ℤ) % (high - low)

/-- Running cumulative sums, with accumulator `acc`. -/
def cumsumFrom (acc : ℚ) : List ℚ → List ℚ
  | [] => []
  | x :: xs => (acc + x) :: cumsumFrom (acc + x) xs

/-- Model of `np.cumsum`. -/
def cumsum (l : List ℚ) : List ℚ := cumsumFrom 0 l

/-- Model of `np.searchsorted a v` (left side) on a sorted array: the number
of leading entries strictly below `v`. -/
def searchsortedLeft (l : List ℚ) (v : ℚ) : ℕ :=
  (l.takeWhile (fun a => decide (a < v))).length

/-- Model of `np.amax`.  numpy raises on an empty array; the `0` default is
never relied upon: every theorem about it assumes a non-empty list. -/
def listMax : List ℚ → ℚ
  | [] => 0
  | [a] => a
  | a :: b :: t => max a (listMax (b :: t))

/-- Model of `np.amin` (used only to state the specification's version of the
score normalization, which speaks about the minimum score). -/
def listMin : List ℚ → ℚ
  | [] => 0
  | [a] => a
  | a :: b :: t => min a (listMin (b :: t))

/-- Model of `np.mean`. -/
def mean (l : List ℚ) : ℚ := l.sum / (l.length : ℚ)

/-- Square of `np.std l` with `ddof = d`: numpy's standard deviation is the square
root of this quantity, and it is zero exactly when this quantity is zero. -/
def varianceDdof (l : List ℚ) (d : ℕ) : ℚ :=
  (l.map (fun x => (x - mean l) ^ 2)).sum / ((l.length : ℚ) - (d : ℚ))

namespace Selection

/-- Embeds `Selection.__inverse_scores`: `minobj = scores[0]` (the first
entry, which is the minimum only when the caller passes a sorted score
vector), subtract it from every score when it is negative, then return
`(np.amax normobj + 1) - normobj`.  `scores[0]` raises on an empty array; the
`headD` default is never relied upon. -/
def inverse_scores (scores : List ℚ) : List ℚ :=
  let minobj := scores.headD 0
  let normobj := if minobj < 0 then scores.map (fun s => s - minobj) else scores
  normobj.map (fun v => (listMax normobj + 1) - v)

/-- Embeds `Selection.__roulette`.  `draws j` models the `np.random.random()`
draw of loop iteration `j`; `fb j` drives the `np.random.randint 0 (index-1)`
fallback taken when the binary search lands past the last cumulative bucket. -/
def roulette_core (weights : List ℚ) (parents_count : ℕ) (draws : ℕ → ℚ)
    (fb : ℕ → ℕ) : List ℕ :=
  let sum_normobj := weights.sum
  let prob := weights.map (fun w => w / sum_normobj)
  let cumprob := cumsum prob
  (List.range parents_count).map (fun j =>
    let index := searchsortedLeft cumprob (draws j)
    if index < cumprob.length then index
    else (npRandInt 0 ((index : ℤ) - 1) (fb j)).toNat)

/-- Embeds `Selection.roulette`. -/
def roulette (scores : List ℚ) (parents_count : ℕ) (draws : ℕ → ℚ)
    (fb : ℕ → ℕ) : List ℕ :=
  roulette_core (inverse_scores scores) parents_count draws fb

/-- Embeds `Selection.sigma_scaling`.  `sqrtFn` models the square-root inside
`np.std` (kept abstract because the rationals have no square root; the
theorems about this definition constrain it only through the hypothesis
`sqrtFn 0 = 0`, which any square root satisfies).  On the `sigma == 0` branch
the source assigns the Python scalar `1` to `f`, and `np.cumsum` of the scalar
`1` is the one-element array containing `1`, so the roulette step runs on the
one-element weight list. -/
def sigma_scaling (sqrtFn : ℚ → ℚ) (epsilon : ℚ) (is_noisy : Bool)
    (scores : List ℚ) (parents_count : ℕ) (draws : ℕ → ℚ) (fb : ℕ → ℕ) :
    List ℕ :=
  let f := inverse_scores scores
  let sigma := sqrtFn (varianceDdof f (if is_noisy then 1 else 0))
  let average := mean f
  if sigma = 0 then roulette_core [1] parents_count draws fb
  else
    roulette_core (f.map (fun v => max epsilon (1 + (v - average) / (2 * sigma))))
      parents_count draws fb

/-- One step of numpy's without-replacement sampling: pick the position
`orc j % remaining.length` among the remaining items and recurse. -/
def chooseAux (orc : ℕ → ℕ) : List ℕ → ℕ → ℕ → List ℕ
  | _, 0, _ => []
  | rem, s + 1, j =>
    let i := orc j % rem.length
    rem.getD i 0 :: chooseAux orc (rem.eraseIdx i) s (j + 1)

/-- Model of `np.random.choice` over `np.arange n` of `size` items without replacement: raises
`ValueError` (here `none`) when `size > n`, otherwise draws `size` distinct
items. -/
def npChoiceNoRep (n size : ℕ) (orc : ℕ → ℕ) : Option (List ℕ) :=
  if size ≤ n then some (chooseAux orc (List.range n) size 0) else none

/-- Embeds `Selection.fully_random`: `indexes = np.arange parents_count`
followed by a without-replacement draw of `parents_count` items from
`indexes`.  The fitness vector is ignored, exactly as in the source. -/
def fully_random (scores : List ℚ) (parents_count : ℕ) (orc : ℕ → ℕ) :
    Option (List ℕ) :=
  npChoiceNoRep parents_count parents_count orc

end Selection

namespace Crossover

/-- Embeds `Crossover.one_point` on arrays viewed as functions from gene
positions to values: positions below the cut `ran` take the other parent's
gene (`ofs1[:ran] = y[:ran]` and `ofs2[:ran] = x[:ran]` on fresh copies of the
parents). -/
def one_point (x y : ℕ → ℚ) (ran : ℕ) : (ℕ → ℚ) × (ℕ → ℚ) :=
  (fun i => if i < ran then y i else x i,
   fun i => if i < ran then x i else y i)

/-- Embeds `Crossover.two_point`: the genes of the segment `[ran1, ran2)` are
exchanged. -/
def two_point (x y : ℕ → ℚ) (ran1 ran2 : ℕ) : (ℕ → ℚ) × (ℕ → ℚ) :=
  (fun i => if ran1 ≤ i ∧ i < ran2 then y i else x i,
   fun i => if ran1 ≤ i ∧ i < ran2 then x i else y i)

/-- Embeds `Crossover.uniform`: the Boolean array
`ran = np.random.random x.size < 0.5` becomes the oracle mask `ran`. -/
def uniform (x y : ℕ → ℚ) (ran : ℕ → Bool) : (ℕ → ℚ) × (ℕ → ℚ) :=
  (fun i => if ran i then y i else x i,
   fun i => if ran i then x i else y i)

/-- Embeds `Crossover.segment`: the source swaps `ofs1[i]` with `ofs2[i]`
(which start as copies of `x[i]` and `y[i]`) at every masked position. -/
def segment (x y : ℕ → ℚ) (p : ℕ → Bool) : (ℕ → ℚ) × (ℕ → ℚ) :=
  (fun i => if p i then y i else x i,
   fun i => if p i then x i else y i)

/-- Embeds `Crossover.shuffle`: the loop writes `ofs1[index j] = y[index j]`
and `ofs2[index j] = x[index j]` for every `j < ran`, so a position holds the
other parent's gene exactly when some write of the loop hits it. -/
def shuffle (x y : ℕ → ℚ) (index : ℕ → ℕ) (ran : ℕ) : (ℕ → ℚ) × (ℕ → ℚ) :=
  (fun i => if (List.range ran).any (fun j => index j == i) then y i else x i,
   fun i => if (List.range ran).any (fun j => index j == i) then x i else y i)

/-- Embeds `Crossover.mixed`.  The source allocates `a = np.empty x.size` and
`b = np.empty y.size` and then computes `x_min`, `x_max` and `delta` from `a`
and `b` — the freshly allocated, uninitialized buffers — not from the parents
`x` and `y`.  The unspecified buffer contents are the explicit arguments `ga`
and `gb`; `u1 i` and `u2 i` are the unit-interval draws behind the two
`np.random.uniform` calls at position `i`.  The writing loop runs over
`range x.size`, as in the source. -/
def mixed (alpha : ℚ) (x y ga gb : List ℚ) (u1 u2 : ℕ → ℚ) :
    List ℚ × List ℚ :=
  let x_min := List.zipWith min ga gb
  let x_max := List.zipWith max ga gb
  let delta := List.zipWith (fun hi lo => alpha * (hi - lo)) x_max x_min
  ((List.range x.length).map (fun i =>
      npUniform (x_min.getD i 0 - delta.getD i 0) (x_max.getD i 0 + delta.getD i 0) (u1 i)),
   (List.range x.length).map (fun i =>
      npUniform (x_min.getD i 0 - delta.getD i 0) (x_max.getD i 0 + delta.getD i 0) (u2 i)))

end Crossover

namespace Mutations

/-- Embeds `Mutations.uniform_by_x`: resample uniformly over the symmetric
interval of radius `min (x - left) (right - x)` around `x`; `u` is the
unit-interval draw. -/
def uniform_by_x (x left right u : ℚ) : ℚ :=
  let alp := min (x - left) (right - x)
  npUniform (x - alp) (x + alp) u

/-- Embeds `Mutations.uniform_by_center`: resample uniformly over the whole
variable range, ignoring `x`. -/
def uniform_by_center (x left right u : ℚ) : ℚ :=
  npUniform left right u

/-- Embeds `Mutations.gauss_by_x`: the Normal draw with mean `x` and standard
deviation `sd * (right - left)` is the unbounded oracle value `g`; the result
clips it into the bounds via `max left (min right g)`. -/
def gauss_by_x (sd x left right g : ℚ) : ℚ :=
  max left (min right g)

/-- Embeds `Mutations.gauss_by_center`: as `gauss_by_x` but the Normal draw
`g` is centred at the midpoint of the bounds. -/
def gauss_by_center (sd x left right g : ℚ) : ℚ :=
  max left (min right g)

end Mutations

/-- Embeds the per-gene body of `geneticalgorithm2.mut` for an integer gene:
with probability `prob_mut` (the unit draw `pr` is compared against it)
resample over the inclusive range via `np.random.randint low (high+1)`. -/
def mutGeneInt (probMut pr : ℚ) (low high x : ℤ) (r : ℕ) : ℤ :=
  if pr < probMut then npRandInt low (high + 1) r else x

/-- Embeds the per-gene body of `geneticalgorithm2.mut` for a real gene with
the configured mutation strategy `strat` (one of the `Mutations` family with
its random draws already supplied). -/
def mutGeneReal (strat : ℚ → ℚ → ℚ → ℚ) (probMut pr : ℚ) (low high x : ℚ) : ℚ :=
  if pr < probMut then strat x low high else x

/-- Embeds the per-gene body of `geneticalgorithm2.mutmidle` for an integer
gene: resample inside the parents' range (`high` end exclusive, as
`np.random.randint p1 p2`), or over the whole variable range when the parents
agree. -/
def mutmidleGeneInt (probMut pr : ℚ) (low high p1 p2 x : ℤ) (r : ℕ) : ℤ :=
  if pr < probMut then
    (if p1 < p2 then npRandInt p1 p2 r
     else if p2 < p1 then npRandInt p2 p1 r
     else npRandInt low (high + 1) r)
  else x

/-- Embeds the per-gene body of `geneticalgorithm2.mutmidle` for a real gene:
`np.random.uniform p1 p2` when the parents differ, otherwise a full-range
resample. -/
def mutmidleGeneReal (probMut pr : ℚ) (low high p1 p2 x u : ℚ) : ℚ :=
  if pr < probMut then
    (if p1 ≠ p2 then npUniform p1 p2 u else npUniform low high u)
  else x

/-- Population row: the variable vector together with its fitness score (the
last column of the numpy population matrix). -/
abbrev Row := List ℚ × ℚ

/-- Comparison used by `pop[pop[:, self.dim].argsort()]`: ascending fitness. -/
def rowLe (a b : Row) : Prop := a.2 ≤ b.2

instance : DecidableRel rowLe := fun a b => inferInstanceAs (Decidable (a.2 ≤ b.2))

instance : IsTotal Row rowLe := ⟨fun a b => le_total a.2 b.2⟩

instance : IsTrans Row rowLe := ⟨fun _ _ _ h h' => le_trans h h'⟩

/-- Model of `pop = pop[pop[:, self.dim].argsort()]`: sort the population by
fitness ascending (the claims depend only on sortedness and on the multiset
of rows, both shared by every sorting algorithm). -/
def sortPop (pop : List Row) : List Row := List.insertionSort rowLe pop

/-- The run configuration fields of `geneticalgorithm2` that the evolutionary
loop reads: `pop_s`, `par_s`, `num_elit`, `prob_mut`, `mniwi`,
`apply_function_to_parents` and the objective applied row-wise by
`default_set_function`. -/
structure GAConfig where
  popS : ℕ
  parS : ℕ
  numElit : ℕ
  probMut : ℚ
  mniwi : ℕ
  applyToParents : Bool
  f : List ℚ → ℚ

/-- The random data consumed by one generation, together with the pluggable
strategy callables (`self.selection`, `self.crossover`, `self.mut`,
`self.mutmidle`) with their own randomness already absorbed.  `selIdx` is the
index vector returned by the configured selection strategy, `crossMask` the
Boolean vector `np.random.random par_s <= prob_cross` (the source redraws it
until it is non-empty; a run in which every redraw is all-false never
terminates, so terminating executions are exactly those whose recorded mask
selects at least one parent), `r1 j`/`r2 j` the `np.random.randint 0
par_count` draws of offspring pair `j`. -/
structure GenOracle where
  selIdx : List ℤ
  crossMask : List Bool
  r1 : ℕ → ℕ
  r2 : ℕ → ℕ
  cross : ℕ → List ℚ → List ℚ → List ℚ × List ℚ
  mutf : ℕ → List ℚ → List ℚ
  mutmidf : ℕ → List ℚ → List ℚ → List ℚ → List ℚ

/-- The engine's mutable run state: the population, the best record
(`self.best_function`, `self.best_variable`), the stagnation counter and the
history `self.report` of per-generation best scores.  The cosmetic
`report_min` and `report_average` histories are not read by any claim. -/
structure GAState where
  pop : List Row
  bestF : ℚ
  bestV : List ℚ
  counter : ℕ
  report : List ℚ
  deriving DecidableEq

/-- Boolean-mask row selection `par[ef_par_list]`. -/
def maskFilter {α : Type} : List α → List Bool → List α
  | a :: as, b :: bs => if b then a :: maskFilter as bs else maskFilter as bs
  | _, _ => []

/-- Row gather `pop[new_par_inds]` after the `np.int8` cast, index by index;
an invalid index raises, giving `none`. -/
def lookupRows (pop : List Row) : List ℤ → Option (List Row)
  | [] => some []
  | i :: is =>
    match npRowGet pop i, lookupRows pop is with
    | some r, some rs => some (r :: rs)
    | _, _ => none

/-- The population-building part of one loop iteration of
`geneticalgorithm2.run` (lines 429-474), applied to the already sorted
population: the parent pool is the top `num_elit` rows verbatim followed by
the rows gathered through the `np.int8`-cast selection indices; the
crossover-eligible subset is the Boolean-masked parent pool (the source
redraws an all-false mask, so a terminating execution's mask is non-empty);
the remaining slots are filled two at a time by crossover of two randomly
picked eligible parents followed — when `prob_mut > 0` — by the two mutation
operators, each offspring row scored with the objective (its stale `solo`
score is overwritten by the `set_function` line before it is ever read).
Situations that raise in numpy return `none`: more elites than parent slots
or than rows, more parent slots than the population holds, a selection index
vector of the wrong length, an out-of-range gathered index, a mask of the
wrong length, and an odd number of offspring slots (the pairwise loop would
write one row past the end). -/
def newPopulation (cfg : GAConfig) (orc : GenOracle) (sorted : List Row) :
    Option (List Row) :=
  if cfg.numElit > cfg.parS ∨ cfg.numElit > sorted.length ∨ cfg.parS > cfg.popS ∨
      orc.selIdx.length ≠ cfg.parS - cfg.numElit ∨ (cfg.popS - cfg.parS) % 2 ≠ 0 then
    none
  else
    match lookupRows sorted orc.selIdx with
    | none => none
    | some selRows =>
      let par := sorted.take cfg.numElit ++ selRows
      if orc.crossMask.length ≠ par.length then none
      else
        let ef_par := maskFilter par orc.crossMask
        let par_count := ef_par.length
        if par_count = 0 then none
        else
          let pairs := (List.range ((cfg.popS - cfg.parS) / 2)).map (fun j =>
            let p1 := (ef_par.getD (orc.r1 j % par_count) ([], 0)).1
            let p2 := (ef_par.getD (orc.r2 j % par_count) ([], 0)).1
            let c := orc.cross j p1 p2
            let ch1 := if 0 < cfg.probMut then orc.mutf j c.1 else c.1
            let ch2 := if 0 < cfg.probMut then orc.mutmidf j c.2 p1 p2 else c.2
            ((ch1, cfg.f ch1), (ch2, cfg.f ch2)))
          some (par ++ (pairs.map (fun pr => [pr.1, pr.2])).flatten)

/-- One iteration of the `while` loop body of `geneticalgorithm2.run` (lines
405-480): sort the population, update the best record and the stagnation
counter on strict improvement, append the generation's best score to the
report, and build the next population; scores are re-evaluated for every row
when `apply_function_to_parents` is set (offspring rows are scored inside
`newPopulation` either way, and re-scoring them with the same objective is
idempotent). -/
def genStep (cfg : GAConfig) (orc : GenOracle) (st : GAState) : Option GAState :=
  match sortPop st.pop with
  | [] => none
  | h :: t =>
    (newPopulation cfg orc (h :: t)).map (fun newpop =>
      { pop := if cfg.applyToParents then newpop.map (fun r => (r.1, cfg.f r.1)) else newpop
        bestF := if h.2 < st.bestF then h.2 else st.bestF
        bestV := if h.2 < st.bestF then h.1 else st.bestV
        counter := if h.2 < st.bestF then 0 else st.counter + 1
        report := st.report ++ [h.2] })

/-- The `while t <= self.iterate` loop of `run` with the `counter > mniwi`
early-stop branch (lines 487-494): after a step whose counter exceeds the
patience, the source re-sorts the population and, when the sorted best is not
an improvement over the best record, jumps `t` past the budget, ending the
loop; otherwise it continues on the sorted population.  One unit of `fuel`
stands for one remaining value of `t`. -/
def gaLoop (cfg : GAConfig) (orc : ℕ → GenOracle) :
    ℕ → ℕ → GAState → Option GAState
  | 0, _, st => some st
  | fuel + 1, t, st =>
    match genStep cfg (orc t) st with
    | none => none
    | some st' =>
      if st'.counter > cfg.mniwi then
        match sortPop st'.pop with
        | [] => none
        | h :: tl =>
          if st'.bestF ≤ h.2 then some { st' with pop := h :: tl }
          else gaLoop cfg orc fuel (t + 1) { st' with pop := h :: tl }
      else gaLoop cfg orc fuel (t + 1) st'

/-- The epilogue of `run` (lines 498-511): final sort, best-record update
(without touching the counter) and the last report append. -/
def finalize (st : GAState) : Option GAState :=
  match sortPop st.pop with
  | [] => none
  | h :: t =>
    some { pop := h :: t
           bestF := if h.2 < st.bestF then h.2 else st.bestF
           bestV := if h.2 < st.bestF then h.1 else st.bestV
           counter := st.counter
           report := st.report ++ [h.2] }

/-- The state at loop entry: `self.report = []`, and
`self.best_function`/`self.best_variable` hold the last evaluated row of the
initial population (both initialization branches of `run` leave `obj` and
`var` at the last row). -/
def initGA (pop : List Row) : GAState :=
  { pop := pop
    bestF := (pop.getLastD ([], 0)).2
    bestV := (pop.getLastD ([], 0)).1
    counter := 0
    report := [] }

/-- A full run of the evolutionary loop from an initial population: `iterate`
loop iterations followed by the epilogue. -/
def runGA (cfg : GAConfig) (orc : ℕ → GenOracle) (iterate : ℕ)
    (pop : List Row) : Option GAState :=
  (gaLoop cfg orc iterate 1 (initGA pop)).bind finalize

/-- The property the specification claims of `self.report`: consecutive
entries never increase. -/
def reportMono (l : List ℚ) : Prop := List.Chain' (fun a b => b ≤ a) l

instance : DecidableRel (fun a b : ℚ => b ≤ a) :=
  fun _ _ => inferInstanceAs (Decidable (_ ≤ _))

instance : DecidablePred reportMono :=
  fun l => inferInstanceAs (Decidable (List.Chain' _ l))

/-- Variable kind, `var_type[i]`: the string `int` or `real`. -/
inductive VKind
  | kInt
  | kReal

/-- The per-dimension contribution sum of the default iteration budget
(`__init__`, lines 250-255): integer variables contribute
`(upper - lower) * dim * (100 / pop_s)`, real ones
`(upper - lower) * 50 * (100 / pop_s)`. -/
def iterSum (types : List VKind) (bounds : List (ℚ × ℚ)) (popS : ℕ) : ℚ :=
  let dim := types.length
  ((types.zip bounds).map (fun tb =>
    match tb.1 with
    | VKind.kInt => (tb.2.2 - tb.2.1) * (dim : ℚ) * (100 / (popS : ℚ))
    | VKind.kReal => (tb.2.2 - tb.2.1) * 50 * (100 / (popS : ℚ)))).sum

/-- The derived iteration budget when `max_num_iteration` is `None`
(`__init__`, lines 249-258): truncate the contribution sum with Python `int`,
then, when the product with the population size exceeds ten million, replace
it by the float quotient `10000000 / pop_s` (a true division: the result need
not be an integer). -/
def defaultIterate (types : List VKind) (bounds : List (ℚ × ℚ)) (popS : ℕ) : ℚ :=
  let it : ℚ := (pyTrunc (iterSum types bounds popS) : ℚ)
  if it * (popS : ℚ) > 10000000 then 10000000 / (popS : ℚ) else it

/-- Statement, taken from the specification's words for claim C4, of the
normalization step: shift every score by the minimum score when that minimum
is negative, otherwise leave the vector unchanged. -/
def specNormalized (scores : List ℚ) : List ℚ :=
  if listMin scores < 0 then scores.map (fun s => s - listMin scores) else scores

/-- Statement, taken from the specification's words for claim C4, of the
inverted score: `(max normalized + 1) - normalized`. -/
def specInverted (scores : List ℚ) : List ℚ :=
  (specNormalized scores).map (fun v => (listMax (specNormalized scores) + 1) - v)

/-- The invariant the evolutionary loop maintains when at least one elite is
kept and parents' scores are carried forward: the report is non-increasing,
and some current row scores no worse than the report's last entry. -/
def InvGA (st : GAState) : Prop :=
  reportMono st.report ∧
    ∀ q, st.report.getLast? = some q → ∃ r ∈ st.pop, r.2 ≤ q

/-- A configuration with no elites (`elit_ratio = 0` gives `num_elit = 0`):
two individuals, both parent slots filled by selection, no offspring slots. -/
def cexConfigC1 : GAConfig :=
  { popS := 2, parS := 2, numElit := 0, probMut := 0, mniwi := 5,
    applyToParents := false, f := fun v => v.headD 0 }

/-- Random data under which the selection strategy returns the worst row for
both parent slots (the roulette wheel can do this whenever the worst row has
positive inverted weight). -/
def cexOracleC1 : ℕ → GenOracle := fun _ =>
  { selIdx := [1, 1], crossMask := [true, true],
    r1 := fun _ => 0, r2 := fun _ => 0,
    cross := fun _ a b => (a, b), mutf := fun _ a => a,
    mutmidf := fun _ b _ _ => b }

/-- A two-row start population with distinct scores. -/
def cexPopC1 : List Row := [([0], 0), ([1], 1)]

/-- The configuration of `cexConfigC1` but with one elite slot kept. -/
def wConfigC1 : GAConfig :=
  { popS := 2, parS := 2, numElit := 1, probMut := 0, mniwi := 5,
    applyToParents := false, f := fun v => v.headD 0 }

/-- Random data for the one-elite run: one selection index, one
crossover-eligible parent. -/
def wOracleC1 : ℕ → GenOracle := fun _ =>
  { selIdx := [0], crossMask := [true, false],
    r1 := fun _ => 0, r2 := fun _ => 0,
    cross := fun _ a b => (a, b), mutf := fun _ a => a,
    mutmidf := fun _ b _ _ => b }

/-- The final state of the one-elite run `runGA wConfigC1 wOracleC1 1
cexPopC1`, written out. -/
def wStfC1 : GAState :=
  { pop := [([0], 0), ([0], 0)], bestF := 0, bestV := [0],
    counter := 0, report := [0, 0] }

/-- A concrete engine state whose sorted population improves on the recorded
best. -/
def wStC6 : GAState :=
  { pop := [([3], 3), ([2], 2)], bestF := 3, bestV := [3],
    counter := 5, report := [] }

/-- The state `genStep wConfigC1 (wOracleC1 0) wStC6` produces, written
out. -/
def wStC6' : GAState :=
  { pop := [([2], 2), ([2], 2)], bestF := 2, bestV := [2],
    counter := 0, report := [2] }

lemma sortPop_perm (pop : List Row) : List.Perm (sortPop pop) pop :=
  List.perm_insertionSort _ _

lemma sortPop_sorted (pop : List Row) : List.Sorted rowLe (sortPop pop) :=
  List.sorted_insertionSort _ _

/-- The head of the sorted population belongs to the population and scores no
worse than every row. -/
lemma sortPop_head_min {pop : List Row} {h : Row} {t : List Row}
    (hs : sortPop pop = h :: t) : h ∈ pop ∧ ∀ r ∈ pop, h.2 ≤ r.2 := by
  have hp := sortPop_perm pop
  rw [hs] at hp
  refine ⟨hp.subset (List.mem_cons_self h t), ?_⟩
  intro r hr
  have hsort := sortPop_sorted pop
  rw [hs] at hsort
  rcases List.mem_cons.mp (hp.symm.subset hr) with hrh | hrt
  · exact le_of_eq (congrArg Prod.snd hrh.symm)
  · exact List.rel_of_sorted_cons hsort r hrt

/-- Appending an entry no larger than the last one keeps the report
non-increasing. -/
lemma reportMono_concat {l : List ℚ} {a : ℚ} (hl : reportMono l)
    (hlast : ∀ q, l.getLast? = some q → a ≤ q) : reportMono (l ++ [a]) := by
  unfold reportMono at hl ⊢
  rw [List.chain'_append]
  refine ⟨hl, List.chain'_singleton a, ?_⟩
  intro x hx y hy
  have hy' : a = y := by simpa using hy
  subst hy'
  exact hlast x hx

lemma npUniform_bounds {a b u : ℚ} (h0 : 0 ≤ u) (h1 : u ≤ 1) :
    min a b ≤ npUniform a b u ∧ npUniform a b u ≤ max a b := by
  unfold npUniform
  rcases le_total a b with hab | hab
  · rw [min_eq_left hab, max_eq_right hab]
    constructor <;> nlinarith
  · rw [min_eq_right hab, max_eq_left hab]
    constructor <;> nlinarith

lemma npRandInt_bounds {low high : ℤ} (h : low < high) (r : ℕ) :
    low ≤ npRandInt low high r ∧ npRandInt low high r < high := by
  unfold npRandInt
  have h1 : 0 ≤ (r : ℤ) % (high - low) := Int.emod_nonneg _ (by omega)
  have h2 : (r : ℤ) % (high - low) < high - low := Int.emod_lt_of_pos _ (by omega)
  omega

/-- Re-inserting the removed element in front of `eraseIdx` permutes back to
the original list. -/
lemma get_cons_eraseIdx_perm :
    ∀ (l : List ℕ) (i : ℕ) (h : i < l.length),
      List.Perm (l.get ⟨i, h⟩ :: l.eraseIdx i) l
  | _ :: _, 0, _ => List.Perm.refl _
  | a :: t, i + 1, h => by
    have hlt : i < t.length := by simpa using h
    have ih := get_cons_eraseIdx_perm t i hlt
    exact (List.Perm.swap a (t.get ⟨i, hlt⟩) (t.eraseIdx i)).trans (ih.cons a)

/-- The without-replacement picker returns `s` distinct items of the
remaining pool whenever `s` does not exceed the pool. -/
lemma chooseAux_spec (orc : ℕ → ℕ) :
    ∀ (s : ℕ) (rem : List ℕ) (j : ℕ), rem.Nodup → s ≤ rem.length →
      (Selection.chooseAux orc rem s j).Nodup ∧
      (Selection.chooseAux orc rem s j).length = s ∧
      ∀ v ∈ Selection.chooseAux orc rem s j, v ∈ rem
  | 0, rem, j, _, _ => by simp [Selection.chooseAux]
  | s + 1, rem, j, hnd, hle => by
    have hpos : 0 < rem.length := lt_of_lt_of_le (Nat.succ_pos s) hle
    have hilt : orc j % rem.length < rem.length := Nat.mod_lt _ hpos
    have hperm := get_cons_eraseIdx_perm rem (orc j % rem.length) hilt
    have hgetD : rem.getD (orc j % rem.length) 0 = rem.get ⟨orc j % rem.length, hilt⟩ := by
      rw [List.getD_eq_getElem?_getD, List.getElem?_eq_getElem hilt]
      rfl
    have hnd' := (hperm.nodup_iff.mpr hnd)
    have hlen' : (rem.eraseIdx (orc j % rem.length)).length = rem.length - 1 := by
      have := hperm.length_eq
      simp only [List.length_cons] at this
      omega
    have ih := chooseAux_spec orc s (rem.eraseIdx (orc j % rem.length)) (j + 1)
      (List.nodup_cons.mp hnd').2 (by omega)
    refine ⟨?_, ?_, ?_⟩
    · show (rem.getD (orc j % rem.length) 0 :: _).Nodup
      rw [hgetD]
      exact List.nodup_cons.mpr
        ⟨fun hmem => (List.nodup_cons.mp hnd').1 (ih.2.2 _ hmem), ih.1⟩
    · show (rem.getD (orc j % rem.length) 0 :: _).length = s + 1
      simp [ih.2.1]
    · intro v hv
      rcases List.mem_cons.mp hv with hv | hv
      · rw [hv, hgetD]
        exact List.get_mem rem _ hilt
      · exact hperm.subset (List.mem_cons_of_mem _ (ih.2.2 v hv))

/-- Shifting every entry by a constant shifts the maximum by the same
constant. -/
lemma listMax_map_sub (c : ℚ) :
    ∀ (l : List ℚ), l ≠ [] → listMax (l.map (fun s => s - c)) = listMax l - c
  | [a], _ => by simp [listMax]
  | a :: b :: t, _ => by
    have ih := listMax_map_sub c (b :: t) (by simp)
    show max (a - c) (listMax ((b :: t).map (fun s => s - c))) = max a (listMax (b :: t)) - c
    rw [ih, max_sub_sub_right]

/-- The inverted-score formula is invariant under shifting all scores by a
constant. -/
lemma inverted_of_shift (l : List ℚ) (hl : l ≠ []) (c : ℚ) :
    (l.map (fun s => s - c)).map
        (fun v => (listMax (l.map (fun s => s - c)) + 1) - v) =
      l.map (fun s => (listMax l + 1) - s) := by
  rw [listMax_map_sub c l hl, List.map_map]
  refine List.map_congr_left ?_
  intro a _
  simp only [Function.comp_apply]
  ring

/-- Roulette over the one-element weight list `[1]` (the `np.cumsum 1` of the
scalar `1`) returns index `0` for every draw below `1`. -/
lemma roulette_core_one (k : ℕ) (draws : ℕ → ℚ) (fb : ℕ → ℕ)
    (hd : ∀ j, 0 ≤ draws j ∧ draws j < 1) :
    Selection.roulette_core [1] k draws fb = List.replicate k 0 := by
  have hcum : cumsum (([1] : List ℚ).map (fun w => w / ([1] : List ℚ).sum)) = [1] := by
    norm_num [cumsum, cumsumFrom]
  refine List.eq_replicate_iff.mpr ⟨?_, ?_⟩
  · unfold Selection.roulette_core
    simp
  · intro b hb
    unfold Selection.roulette_core at hb
    simp only [hcum] at hb
    obtain ⟨j, _, rfl⟩ := List.mem_map.mp hb
    have hjs : searchsortedLeft [1] (draws j) = 0 := by
      unfold searchsortedLeft
      have hnl : ¬ ((1 : ℚ) < draws j) := not_lt.mpr (le_of_lt (hd j).2)
      simp [List.takeWhile, hnl]
    simp [hjs]

/-- When at least one elite slot is kept, the head of the sorted population
survives verbatim into the population `newPopulation` builds. -/
lemma newPopulation_head_mem {cfg : GAConfig} {orc : GenOracle} {h : Row}
    {t np : List Row} (hnp : newPopulation cfg orc (h :: t) = some np)
    (helit : 1 ≤ cfg.numElit) : h ∈ np := by
  unfold newPopulation at hnp
  simp only [] at hnp
  repeat' split at hnp
  all_goals try exact Option.noConfusion hnp
  all_goals
    rw [Option.some.injEq] at hnp
    subst hnp
    apply List.mem_append_left
    apply List.mem_append_left
    obtain ⟨m, hm⟩ := Nat.exists_eq_add_of_le helit
    rw [hm, Nat.add_comm, List.take_succ_cons]
    exact List.mem_cons_self _ _

/-- Everything `genStep` guarantees about a successful step: the sorted
population is non-empty with head `h`, the report gains `h`'s score, the best
record and the counter follow the strict-improvement rule, and — when parents
are carried forward and at least one elite is kept — `h` survives into the new
population with its score. -/
lemma genStep_spec {cfg : GAConfig} {orc : GenOracle} {st st' : GAState}
    (hstep : genStep cfg orc st = some st') :
    ∃ h t, sortPop st.pop = h :: t ∧
      st'.report = st.report ++ [h.2] ∧
      st'.bestF = (if h.2 < st.bestF then h.2 else st.bestF) ∧
      st'.bestV = (if h.2 < st.bestF then h.1 else st.bestV) ∧
      st'.counter = (if h.2 < st.bestF then 0 else st.counter + 1) ∧
      (cfg.applyToParents = false → 1 ≤ cfg.numElit → h ∈ st'.pop) := by
  unfold genStep at hstep
  split at hstep
  · exact absurd hstep (by simp)
  next h t heq =>
    rw [Option.map_eq_some'] at hstep
    obtain ⟨np, hnp, hrec⟩ := hstep
    subst hrec
    refine ⟨h, t, heq, rfl, rfl, rfl, rfl, ?_⟩
    intro happ helit
    simp only [happ, Bool.false_eq_true, if_false]
    exact newPopulation_head_mem hnp helit

/-- A successful generation step preserves the loop invariant when at least
one elite is kept and parents' scores are carried forward. -/
lemma genStep_inv {cfg : GAConfig} {orc : GenOracle} {st st' : GAState}
    (helit : 1 ≤ cfg.numElit) (happ : cfg.applyToParents = false)
    (hstep : genStep cfg orc st = some st') (hinv : InvGA st) : InvGA st' := by
  obtain ⟨h, t, hs, hrep, _, _, _, hmem⟩ := genStep_spec hstep
  have hmin := sortPop_head_min hs
  have hm : h ∈ st'.pop := hmem happ helit
  constructor
  · rw [hrep]
    apply reportMono_concat hinv.1
    intro q hq
    obtain ⟨r, hr, hrq⟩ := hinv.2 q hq
    exact le_trans (hmin.2 r hr) hrq
  · intro q hq
    rw [hrep, List.getLast?_concat] at hq
    rw [Option.some.injEq] at hq
    exact ⟨h, hm, le_of_eq hq⟩

/-- Replacing the population by its sorted permutation preserves the loop
invariant. -/
lemma invGA_sort {st : GAState} (hinv : InvGA st) {h : Row} {t : List Row}
    (hs : sortPop st.pop = h :: t) : InvGA { st with pop := h :: t } := by
  refine ⟨hinv.1, ?_⟩
  intro q hq
  obtain ⟨r, hr, hrq⟩ := hinv.2 q hq
  have hrmem : r ∈ h :: t := by
    rw [← hs]
    exact (sortPop_perm st.pop).symm.subset hr
  exact ⟨r, hrmem, hrq⟩

/-- The whole loop preserves the invariant. -/
lemma gaLoop_inv {cfg : GAConfig} {orc : ℕ → GenOracle}
    (helit : 1 ≤ cfg.numElit) (happ : cfg.applyToParents = false) :
    ∀ (fuel t : ℕ) (st st' : GAState), InvGA st →
      gaLoop cfg orc fuel t st = some st' → InvGA st'
  | 0, t, st, st', hinv, hrun => by
    unfold gaLoop at hrun
    rw [Option.some.injEq] at hrun
    exact hrun ▸ hinv
  | fuel + 1, t, st, st', hinv, hrun => by
    unfold gaLoop at hrun
    split at hrun
    · exact Option.noConfusion hrun
    next st₁ hst =>
      have hinv₁ := genStep_inv helit happ hst hinv
      split at hrun
      · split at hrun
        · exact Option.noConfusion hrun
        next h tl heq =>
          have hinv₂ := invGA_sort hinv₁ heq
          split at hrun
          · rw [Option.some.injEq] at hrun
            exact hrun ▸ hinv₂
          · exact gaLoop_inv helit happ fuel (t + 1) _ st' hinv₂ hrun
      · exact gaLoop_inv helit happ fuel (t + 1) st₁ st' hinv₁ hrun

/-- The epilogue keeps the report non-increasing. -/
lemma finalize_mono {st st' : GAState} (hinv : InvGA st)
    (hfin : finalize st = some st') : reportMono st'.report := by
  unfold finalize at hfin
  split at hfin
  · exact Option.noConfusion hfin
  next h t heq =>
    rw [Option.some.injEq] at hfin
    subst hfin
    apply reportMono_concat hinv.1
    intro q hq
    obtain ⟨r, hr, hrq⟩ := hinv.2 q hq
    exact le_trans ((sortPop_head_min heq).2 r hr) hrq

/-- Claim C1 (amended): in every run whose configuration keeps at least one
elite slot (`num_elit ≥ 1`) and carries parents' fitness forward
(`apply_function_to_parents` left at its default `False`), the recorded
history of per-generation best fitness is monotonically non-increasing: every
entry appended to `self.report` is less than or equal to its predecessor. -/
theorem run_report_nonincreasing (cfg : GAConfig) (orc : ℕ → GenOracle)
    (iterate : ℕ) (pop : List Row) (stf : GAState)
    (helit : 1 ≤ cfg.numElit) (happ : cfg.applyToParents = false)
    (hrun : runGA cfg orc iterate pop = some stf) : reportMono stf.report := by
  unfold runGA at hrun
  cases hl : gaLoop cfg orc iterate 1 (initGA pop) with
  | none => rw [hl] at hrun; exact Option.noConfusion hrun
  | some st₁ =>
    rw [hl] at hrun
    have hfin : finalize st₁ = some stf := by simpa using hrun
    have hinv₀ : InvGA (initGA pop) :=
      ⟨List.chain'_nil, fun q hq => by simp [initGA] at hq⟩
    exact finalize_mono (gaLoop_inv helit happ iterate 1 (initGA pop) st₁ hinv₀ hl) hfin

/-- Claim C1 witness: the concrete one-elite run `runGA wConfigC1 wOracleC1 1
cexPopC1` ends in `wStfC1`, whose report the theorem shows non-increasing. -/
theorem run_report_nonincreasing_witness : reportMono wStfC1.report :=
  run_report_nonincreasing wConfigC1 wOracleC1 1 cexPopC1 wStfC1 (by decide)
    rfl (of_decide_eq_true (by with_unfolding_all rfl))

/-- Claim C1 counterexample: with no elite slots (`elit_ratio = 0` gives
`num_elit = 0`), a two-individual run in which the selection strategy returns
the worst row for both parent slots records the report `[0, 1, 1]`, whose
second entry exceeds the first — the claim fails as stated for every run. -/
theorem run_report_can_increase :
    (runGA cexConfigC1 cexOracleC1 2 cexPopC1).map GAState.report = some [0, 1, 1] ∧
    ¬ reportMono [0, 1, 1] := by
  constructor
  · exact of_decide_eq_true (by with_unfolding_all rfl)
  · intro hmono
    unfold reportMono at hmono
    have h01 := (List.chain'_cons.mp hmono).1
    norm_num at h01

/-- Claim C2 (code bug): when the inverted scores have standard deviation
exactly zero, `sigma_scaling` assigns the Python scalar `1` — not a vector of
ones — so the roulette's cumulative array collapses to the single bucket
`[1]` and the selection returns index `0` for every draw, instead of choosing
uniformly among the pool's indices as the specification states. -/
theorem sigma_scaling_zero_std_selects_index_zero (sqrtFn : ℚ → ℚ) (eps : ℚ)
    (scores : List ℚ) (k : ℕ) (draws : ℕ → ℚ) (fb : ℕ → ℕ)
    (hsq : sqrtFn (varianceDdof (Selection.inverse_scores scores) 0) = 0)
    (hd : ∀ j, 0 ≤ draws j ∧ draws j < 1) :
    Selection.sigma_scaling sqrtFn eps false scores k draws fb =
      List.replicate k 0 := by
  unfold Selection.sigma_scaling
  simp only [Bool.false_eq_true, if_false, hsq]
  rw [if_pos trivial]
  exact roulette_core_one k draws fb hd

/-- Claim C2 witness: on the constant score vector `[5, 5, 5]` (inverted
scores all `1`, variance `0`) the selection returns `[0, 0]`. -/
theorem sigma_scaling_zero_std_selects_index_zero_witness :
    Selection.sigma_scaling (fun q => if q = 0 then 0 else 1) (1 / 100) false
      [5, 5, 5] 2 (fun _ => 1 / 2) (fun _ => 0) = List.replicate 2 0 :=
  sigma_scaling_zero_std_selects_index_zero _ _ _ _ _ _
    (of_decide_eq_true (by with_unfolding_all rfl))
    (fun _ => ⟨by norm_num, by norm_num⟩)

/-- Claim C3 (amended): `fully_random` never fails, and returns
`parents_count` distinct indices drawn from `[0, parents_count)`; the pool
size plays no role, so for `k > pool_size` it still succeeds and can return
indices beyond the pool. -/
theorem fully_random_draws_from_range_k (scores : List ℚ) (k : ℕ) (orc : ℕ → ℕ) :
    (Selection.fully_random scores k orc).isSome = true ∧
    ∀ l, Selection.fully_random scores k orc = some l →
      l.Nodup ∧ l.length = k ∧ ∀ i ∈ l, i < k := by
  unfold Selection.fully_random Selection.npChoiceNoRep
  rw [if_pos (le_refl k)]
  refine ⟨rfl, ?_⟩
  intro l hl
  rw [Option.some.injEq] at hl
  subst hl
  have h := chooseAux_spec orc k (List.range k) 0 (List.nodup_range k) (by simp)
  exact ⟨h.1, h.2.1, fun i hi => List.mem_range.mp (h.2.2 i hi)⟩

/-- Claim C3 witness: the draw `fully_random [0, 1, 2] 2` with oracle `1`
returns `[1, 0]`, which the theorem shows distinct and of length 2. -/
theorem fully_random_draws_from_range_k_witness :
    ([1, 0] : List ℕ).Nodup ∧ ([1, 0] : List ℕ).length = 2 :=
  ⟨((fully_random_draws_from_range_k [0, 1, 2] 2 (fun _ => 1)).2 [1, 0]
      (of_decide_eq_true (by with_unfolding_all rfl))).1,
   ((fully_random_draws_from_range_k [0, 1, 2] 2 (fun _ => 1)).2 [1, 0]
      (of_decide_eq_true (by with_unfolding_all rfl))).2.1⟩

/-- Claim C3 counterexample: with a pool of one score and `k = 2`,
`fully_random` succeeds — no validation failure although `k > pool_size` —
and returns the index `1`, which lies outside `[0, pool_size)`. -/
theorem fully_random_ignores_pool_size :
    Selection.fully_random [(0 : ℚ)] 2 (fun _ => 0) = some [0, 1] :=
  of_decide_eq_true (by with_unfolding_all rfl)

/-- Claim C4 (confirmed): for every non-empty fitness vector, the inverted
score computed by `Selection.__inverse_scores` (which shifts by `scores[0]`
when that first entry is negative) equals the specification's
`(max normalized + 1) - normalized` with `normalized` shifted by the minimum
score when the minimum is negative: the formula is invariant under shifting,
so the two normalizations agree on every input. -/
theorem inverse_scores_matches_spec (scores : List ℚ) (hs : scores ≠ []) :
    Selection.inverse_scores scores = specInverted scores := by
  have h1 : Selection.inverse_scores scores =
      scores.map (fun s => (listMax scores + 1) - s) := by
    unfold Selection.inverse_scores
    by_cases hm : scores.headD 0 < 0
    · simp only [if_pos hm]
      exact inverted_of_shift scores hs _
    · simp only [if_neg hm]
  have h2 : specInverted scores =
      scores.map (fun s => (listMax scores + 1) - s) := by
    unfold specInverted specNormalized
    by_cases hm : listMin scores < 0
    · simp only [if_pos hm]
      exact inverted_of_shift scores hs _
    · simp only [if_neg hm]
  rw [h1, h2]

/-- Claim C4 witness: on `[3, -1, 2]` both the source's and the
specification's formulas give `[1, 5, 2]`. -/
theorem inverse_scores_matches_spec_witness :
    Selection.inverse_scores [3, -1, 2] = specInverted [3, -1, 2] :=
  inverse_scores_matches_spec [3, -1, 2] (by decide)

/-- Claim C5 (code bug): `Crossover.mixed` computes the per-gene interval
from the uninitialized `np.empty` buffers instead of from the parents.  With
parents `x = y = [0]` the claimed sampling interval is
`[0 - alpha*0, 0 + alpha*0] = {0}`, yet with buffers holding `100` both
offspring genes are `100`, outside that interval. -/
theorem mixed_interval_from_uninitialized :
    Crossover.mixed (1 / 2) [0] [0] [100] [100] (fun _ => 0) (fun _ => 0) =
      ([100], [100]) ∧
    ¬ ((100 : ℚ) ≤ max (0 : ℚ) 0 + (1 / 2) * (max (0 : ℚ) 0 - min (0 : ℚ) 0)) := by
  exact ⟨of_decide_eq_true (by with_unfolding_all rfl), by norm_num⟩

/-- Claim C6 (confirmed): in a successful generation step the head of the
sorted population is the population's best fitness (it belongs to the
population and scores no worse than any row), and the best record is updated
exactly when that fitness is strictly smaller than the current best; on
improvement the stagnation counter resets to `0`, otherwise it increments by
one and the best record is unchanged. -/
theorem best_update_iff_strict_improvement (cfg : GAConfig) (orc : GenOracle)
    (st st' : GAState) (h : Row) (t : List Row)
    (hstep : genStep cfg orc st = some st') (hs : sortPop st.pop = h :: t) :
    h ∈ st.pop ∧ (∀ r ∈ st.pop, h.2 ≤ r.2) ∧
    (h.2 < st.bestF → st'.bestF = h.2 ∧ st'.bestV = h.1 ∧ st'.counter = 0) ∧
    (¬ h.2 < st.bestF →
      st'.bestF = st.bestF ∧ st'.bestV = st.bestV ∧ st'.counter = st.counter + 1) := by
  obtain ⟨h', t', hs', hrep, hbf, hbv, hc, _⟩ := genStep_spec hstep
  have heq := hs.symm.trans hs'
  injection heq with heq1 heq2
  subst heq1
  subst heq2
  have hmin := sortPop_head_min hs
  refine ⟨hmin.1, hmin.2, ?_, ?_⟩
  · intro himp
    rw [hbf, hbv, hc]
    simp [himp]
  · intro hnimp
    rw [hbf, hbv, hc]
    simp [hnimp]

/-- Claim C6 witness: the step from `wStC6` (best record `3`, sorted best
score `2`) updates the best record to `2`, the best vector to `[2]`, and
resets the counter. -/
theorem best_update_iff_strict_improvement_witness :
    wStC6'.bestF = 2 ∧ wStC6'.bestV = [2] ∧ wStC6'.counter = 0 :=
  (best_update_iff_strict_improvement wConfigC1 (wOracleC1 0) wStC6 wStC6'
      ([2], 2) [([3], 3)] (of_decide_eq_true (by with_unfolding_all rfl))
      (of_decide_eq_true (by with_unfolding_all rfl))).2.2.1
    (of_decide_eq_true (by with_unfolding_all rfl))

/-- Claim C7 (amended): the derived budget times the population size never
exceeds ten million, and the budget is the truncation of the contribution sum
except when the cap fires, in which case it is the true float quotient
`10000000 / pop_s`, which need not be an integer. -/
theorem default_budget_capped (types : List VKind) (bounds : List (ℚ × ℚ))
    (popS : ℕ) (hp : 0 < popS) :
    defaultIterate types bounds popS * (popS : ℚ) ≤ 10000000 ∧
    (defaultIterate types bounds popS = ((pyTrunc (iterSum types bounds popS) : ℤ) : ℚ) ∨
     defaultIterate types bounds popS = 10000000 / (popS : ℚ)) := by
  unfold defaultIterate
  by_cases hcap :
      ((pyTrunc (iterSum types bounds popS) : ℤ) : ℚ) * (popS : ℚ) > 10000000
  · simp only [if_pos hcap]
    have hp' : (popS : ℚ) ≠ 0 := Nat.cast_ne_zero.mpr hp.ne'
    exact ⟨le_of_eq (div_mul_cancel₀ _ hp'), Or.inr trivial⟩
  · simp only [if_neg hcap]
    exact ⟨not_lt.mp hcap, Or.inl trivial⟩

/-- Claim C7 witness: the empty configuration with population size 1. -/
theorem default_budget_capped_witness :
    defaultIterate [] [] 1 * ((1 : ℕ) : ℚ) ≤ 10000000 ∧
    (defaultIterate [] [] 1 = ((pyTrunc (iterSum [] [] 1) : ℤ) : ℚ) ∨
     defaultIterate [] [] 1 = 10000000 / ((1 : ℕ) : ℚ)) :=
  default_budget_capped [] [] 1 (by decide)

/-- Claim C7 counterexample: one real variable with bounds `[0, 6000]` and
`population_size = 3` gives contribution sum exactly ten million; the cap
fires and the final budget is `10000000 / 3` — neither an integer nor the
truncated sum, refuting the claim that the budget is always an integer
obtained by truncating the sum. -/
theorem default_budget_not_integer :
    defaultIterate [VKind.kReal] [(0, 6000)] 3 = 10000000 / 3 ∧
    (defaultIterate [VKind.kReal] [(0, 6000)] 3).isInt = false ∧
    defaultIterate [VKind.kReal] [(0, 6000)] 3 ≠
      ((pyTrunc (iterSum [VKind.kReal] [(0, 6000)] 3) : ℤ) : ℚ) := by
  have hsum : iterSum [VKind.kReal] [(0, 6000)] 3 = 10000000 := by
    unfold iterSum
    norm_num [List.zip]
  have htr : pyTrunc 10000000 = 10000000 := by
    unfold pyTrunc
    rw [if_pos (by norm_num)]
    norm_num
  have hdef : defaultIterate [VKind.kReal] [(0, 6000)] 3 = 10000000 / 3 := by
    unfold defaultIterate
    rw [hsum, htr]
    rw [if_pos (by norm_num)]
    norm_num
  refine ⟨hdef, ?_, ?_⟩
  · rw [hdef]
    exact of_decide_eq_true (by with_unfolding_all rfl)
  · rw [hdef, hsum, htr]
    norm_num

/-- Claim C8 (amended): the engine casts selection indices with `np.int8`
before indexing.  For `0 ≤ i ≤ 127` the cast is the identity and the parent
slot is the row at index `i`.  For `128 ≤ i ≤ 255` the cast yields `i - 256`
and the slot is the row at position `pop_size + i - 256` — which coincides
with the row at the returned index exactly when `pop_size = 256`, and is a
different position otherwise. -/
theorem int8_selection_indexing {α : Type} (pop : List α) (i : ℤ) :
    (0 ≤ i → i ≤ 127 → int8cast i = i ∧
      (i < (pop.length : ℤ) → npRowGet pop i = pop.get? i.toNat)) ∧
    (128 ≤ i → i ≤ 255 → int8cast i = i - 256 ∧
      (256 ≤ (pop.length : ℤ) + i →
        npRowGet pop i = pop.get? ((pop.length : ℤ) + i - 256).toNat ∧
        ((pop.length : ℤ) + i - 256 = i ↔ (pop.length : ℤ) = 256))) := by
  constructor
  · intro h0 h127
    have hc : int8cast i = i := by unfold int8cast; omega
    refine ⟨hc, ?_⟩
    intro hlt
    unfold npRowGet npResolve
    rw [hc, if_pos h0, if_pos hlt]
    rfl
  · intro h128 h255
    have hc : int8cast i = i - 256 := by unfold int8cast; omega
    refine ⟨hc, ?_⟩
    intro hn
    have hneg : ¬ (0 ≤ i - 256) := by omega
    have hok : 0 ≤ (pop.length : ℤ) + (i - 256) := by omega
    constructor
    · unfold npRowGet npResolve
      rw [hc, if_neg hneg, if_pos hok]
      have harr : (pop.length : ℤ) + (i - 256) = (pop.length : ℤ) + i - 256 := by ring
      rw [harr]
      rfl
    · omega

/-- Claim C8 witness: a 200-row population with selection index 130: the cast
gives `-126` and the slot is row `74`, a different position. -/
theorem int8_selection_indexing_witness :
    int8cast 130 = 130 - 256 ∧ npRowGet (List.range 200) (130 : ℤ) = some 74 := by
  have h := (int8_selection_indexing (List.range 200) 130).2 (by decide) (by decide)
  refine ⟨h.1, ?_⟩
  have h2 := (h.2 (by decide)).1
  rw [h2]
  exact of_decide_eq_true (by with_unfolding_all rfl)

/-- Claim C8 counterexample: with a population of 256 rows, selection index
128 wraps to the `np.int8` value -128, which numpy resolves to row
`256 - 128 = 128` — exactly the row at the returned index, not a different
(negatively indexed) row. -/
theorem int8_wrap_hits_same_row :
    npRowGet (List.range 256) 128 = some 128 ∧
    (List.range 256).get? 128 = some 128 := by
  exact ⟨of_decide_eq_true (by with_unfolding_all rfl),
    of_decide_eq_true (by with_unfolding_all rfl)⟩

/-- Claim C9 (confirmed): for the crossover strategies `one_point`,
`two_point`, `uniform`, `segment` and `shuffle`, at every position the
offspring pair holds either the parents' genes in order or exchanged; the
embedding is pure (the source operates on `get_copies` of the parents), so
the parent vectors themselves are never modified. -/
theorem crossover_pair_exchange (x y : ℕ → ℚ) (ran ran1 ran2 : ℕ)
    (mask p : ℕ → Bool) (index : ℕ → ℕ) (i : ℕ) :
    (((Crossover.one_point x y ran).1 i = x i ∧ (Crossover.one_point x y ran).2 i = y i) ∨
     ((Crossover.one_point x y ran).1 i = y i ∧ (Crossover.one_point x y ran).2 i = x i)) ∧
    (((Crossover.two_point x y ran1 ran2).1 i = x i ∧ (Crossover.two_point x y ran1 ran2).2 i = y i) ∨
     ((Crossover.two_point x y ran1 ran2).1 i = y i ∧ (Crossover.two_point x y ran1 ran2).2 i = x i)) ∧
    (((Crossover.uniform x y mask).1 i = x i ∧ (Crossover.uniform x y mask).2 i = y i) ∨
     ((Crossover.uniform x y mask).1 i = y i ∧ (Crossover.uniform x y mask).2 i = x i)) ∧
    (((Crossover.segment x y p).1 i = x i ∧ (Crossover.segment x y p).2 i = y i) ∨
     ((Crossover.segment x y p).1 i = y i ∧ (Crossover.segment x y p).2 i = x i)) ∧
    (((Crossover.shuffle x y index ran).1 i = x i ∧ (Crossover.shuffle x y index ran).2 i = y i) ∨
     ((Crossover.shuffle x y index ran).1 i = y i ∧ (Crossover.shuffle x y index ran).2 i = x i)) := by
  refine ⟨?_, ?_, ?_, ?_, ?_⟩
  · by_cases hc : i < ran
    · exact Or.inr ⟨by simp [Crossover.one_point, hc], by simp [Crossover.one_point, hc]⟩
    · exact Or.inl ⟨by simp [Crossover.one_point, hc], by simp [Crossover.one_point, hc]⟩
  · by_cases hc : ran1 ≤ i ∧ i < ran2
    · exact Or.inr ⟨by simp [Crossover.two_point, hc], by simp [Crossover.two_point, hc]⟩
    · exact Or.inl ⟨by simp [Crossover.two_point, hc], by simp [Crossover.two_point, hc]⟩
  · by_cases hc : mask i
    · exact Or.inr ⟨by simp [Crossover.uniform, hc], by simp [Crossover.uniform, hc]⟩
    · exact Or.inl ⟨by simp [Crossover.uniform, hc], by simp [Crossover.uniform, hc]⟩
  · by_cases hc : p i
    · exact Or.inr ⟨by simp [Crossover.segment, hc], by simp [Crossover.segment, hc]⟩
    · exact Or.inl ⟨by simp [Crossover.segment, hc], by simp [Crossover.segment, hc]⟩
  · by_cases hc : (List.range ran).any (fun j => index j == i)
    · refine Or.inr ⟨?_, ?_⟩ <;>
        · unfold Crossover.shuffle
          dsimp only
          rw [if_pos hc]
    · refine Or.inl ⟨?_, ?_⟩ <;>
        · unfold Crossover.shuffle
          dsimp only
          rw [if_neg hc]

/-- Claim C10 (confirmed): every built-in mutation operator preserves gene
bounds: the per-gene bodies of `mut` (integer resampling and each of the four
real strategies `uniform_by_x`, `uniform_by_center`, `gauss_by_x`,
`gauss_by_center`) and of `mutmidle` (integer and real) return values inside
`[lower, upper]` whenever the bounds are ordered, the incoming gene lies
inside them, and — for `mutmidle` — both parents' genes do too. -/
theorem mutation_preserves_bounds
    (probMut pr sd g u left right x p1 p2 : ℚ) (li ui xi q1 q2 : ℤ) (r : ℕ)
    (hu0 : 0 ≤ u) (hu1 : u ≤ 1) (hlr : left ≤ right)
    (hx1 : left ≤ x) (hx2 : x ≤ right)
    (hp11 : left ≤ p1) (hp12 : p1 ≤ right) (hp21 : left ≤ p2) (hp22 : p2 ≤ right)
    (hilr : li ≤ ui) (hxi1 : li ≤ xi) (hxi2 : xi ≤ ui)
    (hq11 : li ≤ q1) (hq12 : q1 ≤ ui) (hq21 : li ≤ q2) (hq22 : q2 ≤ ui) :
    ((li ≤ mutGeneInt probMut pr li ui xi r ∧ mutGeneInt probMut pr li ui xi r ≤ ui) ∧
     (left ≤ mutGeneReal (fun a lo hi => Mutations.uniform_by_x a lo hi u) probMut pr left right x ∧
       mutGeneReal (fun a lo hi => Mutations.uniform_by_x a lo hi u) probMut pr left right x ≤ right) ∧
     (left ≤ mutGeneReal (fun a lo hi => Mutations.uniform_by_center a lo hi u) probMut pr left right x ∧
       mutGeneReal (fun a lo hi => Mutations.uniform_by_center a lo hi u) probMut pr left right x ≤ right) ∧
     (left ≤ mutGeneReal (fun a lo hi => Mutations.gauss_by_x sd a lo hi g) probMut pr left right x ∧
       mutGeneReal (fun a lo hi => Mutations.gauss_by_x sd a lo hi g) probMut pr left right x ≤ right) ∧
     (left ≤ mutGeneReal (fun a lo hi => Mutations.gauss_by_center sd a lo hi g) probMut pr left right x ∧
       mutGeneReal (fun a lo hi => Mutations.gauss_by_center sd a lo hi g) probMut pr left right x ≤ right)) ∧
    (li ≤ mutmidleGeneInt probMut pr li ui q1 q2 xi r ∧
      mutmidleGeneInt probMut pr li ui q1 q2 xi r ≤ ui) ∧
    (left ≤ mutmidleGeneReal probMut pr left right p1 p2 x u ∧
      mutmidleGeneReal probMut pr left right p1 p2 x u ≤ right) := by
  have huni : ∀ a b : ℚ, a ≤ b → a ≤ npUniform a b u ∧ npUniform a b u ≤ b := by
    intro a b hab
    have h := npUniform_bounds (a := a) (b := b) hu0 hu1
    rw [min_eq_left hab, max_eq_right hab] at h
    exact h
  refine ⟨⟨?_, ?_, ?_, ?_, ?_⟩, ?_, ?_⟩
  · unfold mutGeneInt
    split
    · have h := @npRandInt_bounds li (ui + 1) (by omega) r
      omega
    · exact ⟨hxi1, hxi2⟩
  · unfold mutGeneReal Mutations.uniform_by_x
    split
    · have halp1 : min (x - left) (right - x) ≤ x - left := min_le_left _ _
      have halp2 : min (x - left) (right - x) ≤ right - x := min_le_right _ _
      have halp0 : 0 ≤ min (x - left) (right - x) :=
        le_min (by linarith) (by linarith)
      have h := huni (x - min (x - left) (right - x))
        (x + min (x - left) (right - x)) (by linarith)
      exact ⟨by linarith [h.1], by linarith [h.2]⟩
    · exact ⟨hx1, hx2⟩
  · unfold mutGeneReal Mutations.uniform_by_center
    split
    · exact huni left right hlr
    · exact ⟨hx1, hx2⟩
  · unfold mutGeneReal Mutations.gauss_by_x
    split
    · exact ⟨le_max_left _ _, max_le hlr (min_le_left _ _)⟩
    · exact ⟨hx1, hx2⟩
  · unfold mutGeneReal Mutations.gauss_by_center
    split
    · exact ⟨le_max_left _ _, max_le hlr (min_le_left _ _)⟩
    · exact ⟨hx1, hx2⟩
  · unfold mutmidleGeneInt
    split
    · split
      next hlt =>
        have h := npRandInt_bounds hlt r
        omega
      next =>
        split
        next hgt =>
          have h := npRandInt_bounds hgt r
          omega
        next =>
          have h := @npRandInt_bounds li (ui + 1) (by omega) r
          omega
    · exact ⟨hxi1, hxi2⟩
  · unfold mutmidleGeneReal
    split
    · split
      next =>
        have h := npUniform_bounds (a := p1) (b := p2) hu0 hu1
        exact ⟨le_trans (le_min hp11 hp21) h.1, le_trans h.2 (max_le hp12 hp22)⟩
      next => exact huni left right hlr
    · exact ⟨hx1, hx2⟩

/-- Claim C10 witness: concrete genes and bounds for every operator. -/
theorem mutation_preserves_bounds_witness :
    (((0 : ℤ) ≤ mutGeneInt 1 0 0 10 5 7 ∧ mutGeneInt 1 0 0 10 5 7 ≤ 10) ∧
     ((0 : ℚ) ≤ mutGeneReal (fun a lo hi => Mutations.uniform_by_x a lo hi (1 / 2)) 1 0 0 10 5 ∧
       mutGeneReal (fun a lo hi => Mutations.uniform_by_x a lo hi (1 / 2)) 1 0 0 10 5 ≤ 10) ∧
     ((0 : ℚ) ≤ mutGeneReal (fun a lo hi => Mutations.uniform_by_center a lo hi (1 / 2)) 1 0 0 10 5 ∧
       mutGeneReal (fun a lo hi => Mutations.uniform_by_center a lo hi (1 / 2)) 1 0 0 10 5 ≤ 10) ∧
     ((0 : ℚ) ≤ mutGeneReal (fun a lo hi => Mutations.gauss_by_x 1 a lo hi 100) 1 0 0 10 5 ∧
       mutGeneReal (fun a lo hi => Mutations.gauss_by_x 1 a lo hi 100) 1 0 0 10 5 ≤ 10) ∧
     ((0 : ℚ) ≤ mutGeneReal (fun a lo hi => Mutations.gauss_by_center 1 a lo hi 100) 1 0 0 10 5 ∧
       mutGeneReal (fun a lo hi => Mutations.gauss_by_center 1 a lo hi 100) 1 0 0 10 5 ≤ 10)) ∧
    ((0 : ℤ) ≤ mutmidleGeneInt 1 0 0 10 2 8 5 7 ∧ mutmidleGeneInt 1 0 0 10 2 8 5 7 ≤ 10) ∧
    ((0 : ℚ) ≤ mutmidleGeneReal 1 0 0 10 2 8 5 (1 / 2) ∧
      mutmidleGeneReal 1 0 0 10 2 8 5 (1 / 2) ≤ 10) :=
  mutation_preserves_bounds 1 0 1 100 (1 / 2) 0 10 5 2 8 0 10 5 2 8 7
    (by norm_num) (by norm_num) (by norm_num) (by norm_num) (by norm_num)
    (by norm_num) (by norm_num) (by norm_num) (by norm_num) (by decide)
    (by decide) (by decide) (by decide) (by decide) (by decide) (by decide)

end GA2
